import Mathlib

/-!
Shallow embedding of the prescription-reading pipeline of this repository
(`streamlit_demo_0.py`, `v1_async_interpretation.py`,
`v2_adding_google_search_on_v1.py`).

Strings are modeled as lists of characters (`Str`).  Python's `\d`, `\s`,
`str.strip()` and `int()` are modeled over the ASCII range (their extra
non-ASCII code points play no role in the pipeline).  The regular
expression `^\d+\.\s+(.*?):\s*(\d+)%` of `extract_medicine_candidates` is
translated into the executable matcher `parseLine`: a greedy digit run, a
literal period, a greedy whitespace run, a lazy middle group that stops at
the first colon whose suffix completes `\s*(\d+)%`, with `.` refusing a
newline.  External generative-model calls are oracles (`Option`- or
`Except`-valued functions), and the completion order of a concurrent
fan-out is an explicit `arrival` list, so that order-sensitivity can be
quantified over.
-/

abbrev Str := List Char

/-- Python `\s` restricted to ASCII: space, tab, newline, carriage return,
vertical tab and form feed. -/
def isSpaceChar (c : Char) : Bool :=
  c == ' ' || c == '\t' || c == '\n' || c == '\r' || c == '\x0b' || c == '\x0c'

/-- Python `int` applied to a string of decimal digits. -/
def natOfDigits (ds : Str) : Nat :=
  ds.foldl (fun n c => 10 * n + (c.toNat - 48)) 0

/-- Python `str.strip()` over ASCII whitespace. -/
def stripChars (s : Str) : Str :=
  ((s.dropWhile isSpaceChar).reverse.dropWhile isSpaceChar).reverse

/-- Python `str.split("\n")`. -/
def splitLines : Str → List Str
  | [] => [[]]
  | c :: rest =>
    if c = '\n' then [] :: splitLines rest
    else
      match splitLines rest with
      | [] => [[c]]
      | l :: ls => (c :: l) :: ls

/-- One parsed medicine candidate, the dict
`{"name": ..., "confidence": ..., "position": ...}` built by
`extract_medicine_candidates` (`streamlit_demo_0.py`, lines 107-113). -/
structure Candidate where
  name : Str
  confidence : Int
  position : Int
deriving DecidableEq

/-- The suffix matcher for `\s*(\d+)%`: what the regex engine runs right
after a candidate colon.  Greedy whitespace, then a nonempty greedy digit
run, then a literal percent sign; the rest of the line is unconstrained
because `re.search` does not anchor the end. -/
def parseConfidence (r : Str) : Option Nat :=
  let r2 := r.dropWhile isSpaceChar
  let cs := r2.takeWhile Char.isDigit
  let r3 := r2.dropWhile Char.isDigit
  match r3 with
  | [] => none
  | c :: _ => if cs.isEmpty then none else if c = '%' then some (natOfDigits cs) else none

/-- The lazy group `(.*?):` followed by `\s*(\d+)%`: scan for the first
colon whose suffix completes the match, collecting the skipped characters
(the middle group).  A newline stops the scan because `.` does not match
it. -/
def findColon : Str → Option (Str × Nat)
  | [] => none
  | c :: rest =>
    if c = ':' then
      match parseConfidence rest with
      | some conf => some ([], conf)
      | none =>
        match findColon rest with
        | some (mid, conf) => some (c :: mid, conf)
        | none => none
    else if c = '\n' then none
    else
      match findColon rest with
      | some (mid, conf) => some (c :: mid, conf)
      | none => none

/-- One line of an interpretation matched against
`^\d+\.\s+(.*?):\s*(\d+)%` and, on success, turned into a `Candidate`
exactly as `extract_medicine_candidates` does: `name` is the stripped
middle group, `confidence` the integer before the percent sign, and
`position` the leading integer re-matched by `^(\d+)\.`. -/
def parseLine (l : Str) : Option Candidate :=
  let ds := l.takeWhile Char.isDigit
  let r1 := l.dropWhile Char.isDigit
  match r1 with
  | [] => none
  | c :: r2 =>
    if ds.isEmpty then none
    else if c = '.' then
      let ws := r2.takeWhile isSpaceChar
      let r3 := r2.dropWhile isSpaceChar
      if ws.isEmpty then none
      else
        match findColon r3 with
        | some (mid, conf) => some ⟨stripChars mid, (conf : Int), (natOfDigits ds : Int)⟩
        | none => none
    else none

/-- Candidate extraction (`streamlit_demo_0.py`, lines 94-115): strip each
interpretation, split it into lines, and collect one candidate per
matching line. -/
def extract_medicine_candidates (interpretations : List Str) : List Candidate :=
  interpretations.flatMap (fun interpretation =>
    (splitLines (stripChars interpretation)).filterMap parseLine)

/-- The sort key of `medicine_candidates.sort(key=lambda x: x["position"])`. -/
def posLe (a b : Candidate) : Prop := a.position ≤ b.position

instance : DecidableRel posLe := fun a b => Int.decLe a.position b.position

instance : IsTotal Candidate posLe := ⟨fun a b => Int.le_total a.position b.position⟩

instance : IsTrans Candidate posLe := ⟨fun _ _ _ h₁ h₂ => le_trans h₁ h₂⟩

/-- The keys of the `defaultdict` bucket map in their insertion order.
The candidate list has already been sorted by position, so first
occurrences appear in nondecreasing order and the insertion order of the
keys is the adjacent deduplication of the sorted position list. -/
def dedupKeys : List Int → List Int
  | [] => []
  | [p] => [p]
  | p :: q :: rest => if p = q then dedupKeys (q :: rest) else p :: dedupKeys (q :: rest)

/-- Python `str` of a natural number. -/
def natToStr (n : Nat) : Str := Nat.toDigits 10 n

/-- Python `str` of an integer. -/
def intToStr (i : Int) : Str :=
  if i < 0 then '-' :: natToStr i.natAbs else natToStr i.toNat

/-- The rendering `f"{med['name']}: {med['confidence']}%"` of one
candidate inside a group summary. -/
def medicine_text (m : Candidate) : Str :=
  m.name ++ (": ").data ++ intToStr m.confidence ++ ("%").data

/-- The rendering `f"Medicine {position}: [" + ", ".join(...) + "]"` of
one position group. -/
def group_text (position : Int) (group : List Candidate) : Str :=
  ("Medicine ").data ++ intToStr position ++ (": [").data
    ++ List.intercalate ((", ").data) (group.map medicine_text) ++ ("]").data

/-- Grouping (`streamlit_demo_0.py`, lines 119-133): stable-sort the
candidates by position, bucket them by position (each bucket keeps the
sorted order, i.e. is the filter of the sorted list), and emit one
`(position, rendered text, bucket)` triple per distinct position in
ascending key order. -/
def group_similar_medicines (medicine_candidates : List Candidate) :
    List (Int × Str × List Candidate) :=
  let sorted := List.insertionSort posLe medicine_candidates
  let keys := List.insertionSort (fun p q : Int => p ≤ q) (dedupKeys (sorted.map (fun c => c.position)))
  keys.map (fun p =>
    let group := sorted.filter (fun c => c.position == p)
    (p, group_text p group, group))

/-- A group as passed to verification: position, rendered text, bucket. -/
abbrev MedGroup := Int × Str × List Candidate

/-- The sort key of `verification_results.sort(key=lambda x: x[0])`. -/
def pairLe (a b : Int × Str) : Prop := a.1 ≤ b.1

instance : DecidableRel pairLe := fun a b => Int.decLe a.1 b.1

instance : IsTotal (Int × Str) pairLe := ⟨fun a b => Int.le_total a.1 b.1⟩

instance : IsTrans (Int × Str) pairLe := ⟨fun _ _ _ h₁ h₂ => le_trans h₁ h₂⟩

/-- What one verification future contributes when collected
(`streamlit_demo_0.py`, lines 182-190): the position paired with the
model text on success, or with `f"Error: {str(e)}"` when the call raised. -/
def verificationOutcome (call : MedGroup → Except Str Str) (g : MedGroup) : Int × Str :=
  match call g with
  | Except.ok t => (g.1, t)
  | Except.error e => (g.1, ("Error: ").data ++ e)

/-- Verification fan-out (`streamlit_demo_0.py`, lines 137-193).  The
model call (prompt construction included) is the oracle `call`; `arrival`
is the completion order of the futures.  With zero groups the source
builds `ThreadPoolExecutor(max_workers=min(6, 0))`, which raises
`ValueError("max_workers must be greater than 0")`; otherwise every
future contributes exactly one `(position, text)` pair and the collected
list is stably sorted by position. -/
def verify_medicine_groups (call : MedGroup → Except Str Str)
    (medicine_groups arrival : List MedGroup) : Except Str (List (Int × Str)) :=
  if medicine_groups.isEmpty then
    Except.error (("max_workers must be greater than 0").data)
  else
    Except.ok (List.insertionSort pairLe (arrival.map (verificationOutcome call)))

/-- Per-name verification of `v2_adding_google_search_on_v1.py`
(lines 136-163): the `try/except` returns the captured error string
instead of raising. -/
def verify_medicine_name (call : Str → Except Str Str) (medicine_name : Str) : Str :=
  match call medicine_name with
  | Except.ok t => t
  | Except.error e => ("Error verifying medicine: ").data ++ e

/-- An uploaded image: an opaque byte blob. -/
abbrev Image := List Nat

/-- One "read this image" model request with its sampling temperature. -/
structure Request where
  temperature : ℚ
  image : Image
deriving DecidableEq

/-- The list `[0.7 + (i * 0.2) for i in range(num_passes)]`, in exact
rational arithmetic. -/
def temperatures (num_passes : Nat) : List ℚ :=
  (List.range num_passes).map (fun i : ℕ => 7/10 + (i : ℚ) * (2/10))

/-- The requests submitted by `run_parallel_interpretations` in
`streamlit_demo_0.py` (lines 71-78): one per temperature, each carrying
that temperature. -/
def issuedRequests (image : Image) (num_passes : Nat) : List Request :=
  (temperatures num_passes).map (fun t => ⟨t, image⟩)

/-- The request issued by `generate_interpretation` in
`v1_async_interpretation.py` (lines 70-80): the `temperature` parameter
is ignored and the call is made with `temperature=0.2` (the varied value
is commented out in the source). -/
def generate_interpretation_v1 (temperature : ℚ) (image : Image) : Request :=
  ⟨2/10, image⟩

/-- The requests submitted by `run_parallel_interpretations` in
`v1_async_interpretation.py` (lines 83-87): one `generate_interpretation`
task per computed temperature. -/
def issuedRequests_v1 (image : Image) (num_passes : Nat) : List Request :=
  (temperatures num_passes).map (fun t => generate_interpretation_v1 t image)

/-- Python string comparison (code-point lexicographic `<=`), used when
`list.sort()` compares `(temperature, text)` tuples with equal first
components. -/
def leStr : Str → Str → Bool
  | [], _ => true
  | _ :: _, [] => false
  | a :: as, b :: bs => if a < b then true else if b < a then false else leStr as bs

/-- Python tuple comparison on `(temperature, text)` pairs, the order
used by `results.sort()` in `run_parallel_interpretations`. -/
def lexLe (a b : ℚ × Str) : Prop :=
  a.1 < b.1 ∨ (a.1 = b.1 ∧ leStr a.2 b.2 = true)

instance : DecidableRel lexLe := fun a b =>
  inferInstanceAs (Decidable (a.1 < b.1 ∨ (a.1 = b.1 ∧ leStr a.2 b.2 = true)))

/-- Interpretation fan-out collection (`streamlit_demo_0.py`, lines
79-90): `outcome t` is the result of the call at temperature `t` (`none`
when it raised, in which case the `except` branch appends nothing);
`arrival` is the completion order delivered by `as_completed`.  Collected
`(temperature, text)` pairs are sorted with `results.sort()` and the
texts are returned. -/
def run_parallel_interpretations (outcome : ℚ → Option Str) (arrival : List ℚ) : List Str :=
  (List.insertionSort lexLe
    (arrival.filterMap (fun t => (outcome t).map (fun r => (t, r))))).map (fun x => x.2)

/-- The fixed report of the terminal no-candidates path
(`streamlit_demo_0.py`, line 284). -/
def no_medicines_report : Str :=
  ("```\nFINAL PRESCRIPTION MEDICINES:\n\nNo medicines were identified in the prescription.\n```").data

/-- The observable result of one run of `main`'s processing block. -/
inductive PipelineOutcome where
  | noMedicinesFound (finalReport : Str)
  | completed (groups : List MedGroup) (verifications : List (Int × Str)) (finalReport : Str)
  | verificationError (e : Str)
deriving DecidableEq

/-- The control flow of `main` (`streamlit_demo_0.py`, lines 258-323)
after the interpretations have been collected: extract candidates; if
none were found, short-circuit to the fixed report without grouping,
verification or synthesis; otherwise group, verify and synthesize.
`synth` is the `format_final_results` model call as an oracle. -/
def main_pipeline (interps : List Str) (call : MedGroup → Except Str Str)
    (arrival : List MedGroup) (synth : List (Int × Str) → Str) : PipelineOutcome :=
  let medicine_candidates := extract_medicine_candidates interps
  if medicine_candidates.isEmpty then
    PipelineOutcome.noMedicinesFound no_medicines_report
  else
    let medicine_groups := group_similar_medicines medicine_candidates
    match verify_medicine_groups call medicine_groups arrival with
    | Except.error e => PipelineOutcome.verificationError e
    | Except.ok v => PipelineOutcome.completed medicine_groups v (synth v)

/-- Spec-side line format, following the specification's words: the line
begins with an integer, a period, whitespace, the medicine-name text, a
colon, and an integer confidence percentage (optionally preceded by
whitespace, as in the displayed pattern `"<n>. <name>: <pct>%"`); the
rest of the line is unconstrained.  The middle text may not contain a
newline. -/
def LineFormat (l : Str) : Prop :=
  ∃ ds ws mid sp cs rest,
    l = ds ++ '.' :: (ws ++ (mid ++ ':' :: (sp ++ (cs ++ '%' :: rest)))) ∧
    ds ≠ [] ∧ (∀ x ∈ ds, x.isDigit = true) ∧
    ws ≠ [] ∧ (∀ x ∈ ws, isSpaceChar x = true) ∧
    (∀ x ∈ mid, x ≠ '\n') ∧
    (∀ x ∈ sp, isSpaceChar x = true) ∧
    cs ≠ [] ∧ (∀ x ∈ cs, x.isDigit = true)

/-- Spec-side description of a produced candidate: the line decomposes
per `LineFormat`, the position is the value of the leading digit run of
the line, the name is the (stripped) text between the period and the
colon, and the confidence is the value of the digit run before the
percent sign. -/
def ParsedAs (l : Str) (c : Candidate) : Prop :=
  ∃ ds ws mid sp cs rest,
    l = ds ++ '.' :: (ws ++ (mid ++ ':' :: (sp ++ (cs ++ '%' :: rest)))) ∧
    ds = l.takeWhile Char.isDigit ∧
    ds ≠ [] ∧ (∀ x ∈ ds, x.isDigit = true) ∧
    ws ≠ [] ∧ (∀ x ∈ ws, isSpaceChar x = true) ∧
    (∀ x ∈ mid, x ≠ '\n') ∧
    (∀ x ∈ sp, isSpaceChar x = true) ∧
    cs ≠ [] ∧ (∀ x ∈ cs, x.isDigit = true) ∧
    c.position = (natOfDigits ds : Int) ∧
    c.name = stripChars mid ∧
    c.confidence = (natOfDigits cs : Int)

/-! ### Helper lemmas on character runs -/

theorem takeWhile_all_cons_of_neg {p : Char → Bool} (xs : Str) (y : Char) (ys : Str)
    (hxs : ∀ x ∈ xs, p x = true) (hy : p y = false) :
    (xs ++ y :: ys).takeWhile p = xs := by
  induction xs with
  | nil => simp [List.takeWhile_cons, hy]
  | cons a t ih =>
    have ha : p a = true := hxs a (List.mem_cons_self a t)
    simp [List.takeWhile_cons, ha, ih (fun x hx => hxs x (List.mem_cons_of_mem a hx))]

theorem dropWhile_all_cons_of_neg {p : Char → Bool} (xs : Str) (y : Char) (ys : Str)
    (hxs : ∀ x ∈ xs, p x = true) (hy : p y = false) :
    (xs ++ y :: ys).dropWhile p = y :: ys := by
  induction xs with
  | nil => simp [List.dropWhile_cons, hy]
  | cons a t ih =>
    have ha : p a = true := hxs a (List.mem_cons_self a t)
    simp [List.dropWhile_cons, ha, ih (fun x hx => hxs x (List.mem_cons_of_mem a hx))]

theorem dropWhile_append_all {p : Char → Bool} (xs ys : Str)
    (hxs : ∀ x ∈ xs, p x = true) :
    (xs ++ ys).dropWhile p = ys.dropWhile p := by
  induction xs with
  | nil => rfl
  | cons a t ih =>
    have ha : p a = true := hxs a (List.mem_cons_self a t)
    simp [List.dropWhile_cons, ha, ih (fun x hx => hxs x (List.mem_cons_of_mem a hx))]

theorem dropWhile_append_cons_neg {p : Char → Bool} (y : Char) (hy : p y = false) :
    ∀ (xs ys : Str), (xs ++ y :: ys).dropWhile p = xs.dropWhile p ++ y :: ys := by
  intro xs ys
  induction xs with
  | nil => simp [List.dropWhile_cons, hy]
  | cons a t ih =>
    by_cases ha : p a = true
    · simp [List.dropWhile_cons, ha, ih]
    · rw [Bool.not_eq_true] at ha
      simp [List.dropWhile_cons, ha]

theorem digit_not_space {c : Char} (h : c.isDigit = true) : isSpaceChar c = false := by
  by_contra hns
  rw [Bool.not_eq_false] at hns
  simp only [isSpaceChar, Bool.or_eq_true, beq_iff_eq] at hns
  rcases hns with ((((h1 | h1) | h1) | h1) | h1) | h1 <;> subst h1 <;> exact absurd h (by decide)

/-! ### Soundness and completeness of the regex translation -/

theorem parseConfidence_sound {r : Str} {conf : Nat} (h : parseConfidence r = some conf) :
    ∃ sp cs rest, r = sp ++ (cs ++ '%' :: rest)
      ∧ (∀ x ∈ sp, isSpaceChar x = true)
      ∧ cs ≠ [] ∧ (∀ x ∈ cs, x.isDigit = true)
      ∧ conf = natOfDigits cs := by
  simp only [parseConfidence] at h
  cases hr3 : (r.dropWhile isSpaceChar).dropWhile Char.isDigit with
  | nil => rw [hr3] at h; exact absurd h (by simp)
  | cons c t =>
    rw [hr3] at h
    simp only [] at h
    split_ifs at h with h1 h2
    refine ⟨r.takeWhile isSpaceChar, (r.dropWhile isSpaceChar).takeWhile Char.isDigit, t,
      ?_, ?_, ?_, ?_, ?_⟩
    · subst h2
      have e2 : (r.dropWhile isSpaceChar).takeWhile Char.isDigit ++ '%' :: t
          = r.dropWhile isSpaceChar := by
        rw [← hr3]; exact List.takeWhile_append_dropWhile Char.isDigit _
      rw [e2]
      exact (List.takeWhile_append_dropWhile isSpaceChar r).symm
    · exact fun x hx => List.mem_takeWhile_imp hx
    · exact fun hnil => h1 (by rw [hnil]; rfl)
    · exact fun x hx => List.mem_takeWhile_imp hx
    · exact (Option.some.inj h).symm

theorem parseConfidence_complete (sp cs rest : Str)
    (hsp : ∀ x ∈ sp, isSpaceChar x = true) (hcs : cs ≠ [])
    (hd : ∀ x ∈ cs, x.isDigit = true) :
    parseConfidence (sp ++ (cs ++ '%' :: rest)) = some (natOfDigits cs) := by
  cases cs with
  | nil => exact absurd rfl hcs
  | cons c0 cs' =>
    have hc0 : c0.isDigit = true := hd c0 (List.mem_cons_self _ _)
    have e1 : (sp ++ (c0 :: cs' ++ '%' :: rest)).dropWhile isSpaceChar
        = c0 :: cs' ++ '%' :: rest := by
      simpa using dropWhile_all_cons_of_neg sp c0 (cs' ++ '%' :: rest) hsp (digit_not_space hc0)
    have e2 : (c0 :: cs' ++ '%' :: rest).takeWhile Char.isDigit = c0 :: cs' :=
      takeWhile_all_cons_of_neg (c0 :: cs') '%' rest hd (by decide)
    have e3 : (c0 :: cs' ++ '%' :: rest).dropWhile Char.isDigit = '%' :: rest :=
      dropWhile_all_cons_of_neg (c0 :: cs') '%' rest hd (by decide)
    simp only [parseConfidence, e1, e2, e3]
    simp

theorem findColon_sound :
    ∀ {s mid : Str} {conf : Nat}, findColon s = some (mid, conf) →
      (∃ t, s = mid ++ ':' :: t ∧ parseConfidence t = some conf) ∧ ∀ x ∈ mid, x ≠ '\n' := by
  intro s
  induction s with
  | nil => intro mid conf h; exact absurd h (by simp [findColon])
  | cons c rest ih =>
    intro mid conf h
    simp only [findColon] at h
    by_cases hc : c = ':'
    · rw [if_pos hc] at h
      cases hpc : parseConfidence rest with
      | some conf2 =>
        rw [hpc] at h
        obtain ⟨he1, he2⟩ := Prod.mk.injEq .. ▸ Option.some.inj h
        subst hc
        refine ⟨⟨rest, ?_, ?_⟩, ?_⟩
        · rw [← he1]; rfl
        · rw [← he2]; exact hpc
        · rw [← he1]; intro x hx; exact absurd hx (List.not_mem_nil x)
      | none =>
        rw [hpc] at h
        cases hfc : findColon rest with
        | none => rw [hfc] at h; exact absurd h (by simp)
        | some mc =>
          obtain ⟨mid', conf'⟩ := mc
          rw [hfc] at h
          obtain ⟨he1, he2⟩ := Prod.mk.injEq .. ▸ Option.some.inj h
          obtain ⟨⟨t, ht, hpt⟩, hmid'⟩ := ih hfc
          subst hc
          refine ⟨⟨t, ?_, ?_⟩, ?_⟩
          · rw [← he1, ht]; rfl
          · rw [← he2]; exact hpt
          · rw [← he1]
            intro x hx
            rcases List.mem_cons.mp hx with h1 | h1
            · subst h1; decide
            · exact hmid' x h1
    · rw [if_neg hc] at h
      by_cases hn : c = '\n'
      · rw [if_pos hn] at h; exact absurd h (by simp)
      · rw [if_neg hn] at h
        cases hfc : findColon rest with
        | none => rw [hfc] at h; exact absurd h (by simp)
        | some mc =>
          obtain ⟨mid', conf'⟩ := mc
          rw [hfc] at h
          obtain ⟨he1, he2⟩ := Prod.mk.injEq .. ▸ Option.some.inj h
          obtain ⟨⟨t, ht, hpt⟩, hmid'⟩ := ih hfc
          refine ⟨⟨t, ?_, ?_⟩, ?_⟩
          · rw [← he1, ht]; rfl
          · rw [← he2]; exact hpt
          · rw [← he1]
            intro x hx
            rcases List.mem_cons.mp hx with h1 | h1
            · subst h1; exact hn
            · exact hmid' x h1

theorem findColon_complete :
    ∀ (mid : Str) {t : Str} {conf : Nat}, (∀ x ∈ mid, x ≠ '\n') →
      parseConfidence t = some conf → ∃ mc, findColon (mid ++ ':' :: t) = some mc := by
  intro mid
  induction mid with
  | nil =>
    intro t conf hm hp
    refine ⟨([], conf), ?_⟩
    simp [findColon, hp]
  | cons c mid' ih =>
    intro t conf hm hp
    simp only [List.cons_append, findColon, List.append_eq]
    obtain ⟨⟨m1, m2⟩, hmc⟩ := ih (fun x hx => hm x (List.mem_cons_of_mem c hx)) hp
    by_cases hc : c = ':'
    · rw [if_pos hc]
      cases hpc : parseConfidence (mid' ++ ':' :: t) with
      | some conf2 => exact ⟨([], conf2), rfl⟩
      | none =>
        rw [hmc]
        exact ⟨(c :: m1, m2), rfl⟩
    · rw [if_neg hc, if_neg (hm c (List.mem_cons_self c mid'))]
      rw [hmc]
      exact ⟨(c :: m1, m2), rfl⟩

theorem parseLine_sound {l : Str} {c : Candidate} (h : parseLine l = some c) : ParsedAs l c := by
  simp only [parseLine] at h
  split at h
  · exact absurd h (by simp)
  · rename_i ch r2 hr1
    split_ifs at h with h1 h2 h3
    cases hfc : findColon (r2.dropWhile isSpaceChar) with
    | none => rw [hfc] at h; exact absurd h (by simp)
    | some mc =>
      obtain ⟨mid, conf⟩ := mc
      rw [hfc] at h
      have hcval : c = ⟨stripChars mid, (conf : Int), (natOfDigits (l.takeWhile Char.isDigit) : Int)⟩ :=
        (Option.some.inj h).symm
      obtain ⟨⟨t, ht, hpt⟩, hmid⟩ := findColon_sound hfc
      obtain ⟨sp, cs, rest, htdec, hsp, hcs, hcdig, hconf⟩ := parseConfidence_sound hpt
      refine ⟨l.takeWhile Char.isDigit, r2.takeWhile isSpaceChar, mid, sp, cs, rest,
        ?_, rfl, ?_, ?_, ?_, ?_, hmid, hsp, hcs, hcdig, ?_, ?_, ?_⟩
      · conv_lhs => rw [← List.takeWhile_append_dropWhile Char.isDigit l]
        rw [hr1, h2]
        congr 1
        congr 1
        conv_lhs => rw [← List.takeWhile_append_dropWhile isSpaceChar r2]
        rw [ht, htdec]
      · exact fun hnil => h1 (by rw [hnil]; rfl)
      · exact fun x hx => List.mem_takeWhile_imp hx
      · exact fun hnil => h3 (by rw [hnil]; rfl)
      · exact fun x hx => List.mem_takeWhile_imp hx
      · rw [hcval]
      · rw [hcval]
      · rw [hcval]
        exact congrArg Int.ofNat hconf

theorem parseLine_complete {l : Str} (h : LineFormat l) : ∃ c, parseLine l = some c := by
  obtain ⟨ds, ws, mid, sp, cs, rest, hl, hds, hdig, hws, hwsp, hmid, hsp, hcs, hcdig⟩ := h
  have hdot : ('.' : Char).isDigit = false := by decide
  have htw : l.takeWhile Char.isDigit = ds := by
    rw [hl]; exact takeWhile_all_cons_of_neg ds '.' _ hdig hdot
  have hdw : l.dropWhile Char.isDigit
      = '.' :: (ws ++ (mid ++ ':' :: (sp ++ (cs ++ '%' :: rest)))) := by
    rw [hl]; exact dropWhile_all_cons_of_neg ds '.' _ hdig hdot
  have hdse : ds.isEmpty = false := by
    cases ds with
    | nil => exact absurd rfl hds
    | cons a t => rfl
  have hwse : ((ws ++ (mid ++ ':' :: (sp ++ (cs ++ '%' :: rest)))).takeWhile isSpaceChar).isEmpty
      = false := by
    cases ws with
    | nil => exact absurd rfl hws
    | cons w ws' =>
      have hw : isSpaceChar w = true := hwsp w (List.mem_cons_self w ws')
      simp [List.takeWhile_cons, hw]
  have hr3 : (ws ++ (mid ++ ':' :: (sp ++ (cs ++ '%' :: rest)))).dropWhile isSpaceChar
      = (mid.dropWhile isSpaceChar) ++ ':' :: (sp ++ (cs ++ '%' :: rest)) := by
    rw [dropWhile_append_all ws _ hwsp]
    exact dropWhile_append_cons_neg ':' (by decide) mid (sp ++ (cs ++ '%' :: rest))
  have hmid2 : ∀ x ∈ mid.dropWhile isSpaceChar, x ≠ '\n' :=
    fun x hx => hmid x ((List.dropWhile_sublist isSpaceChar).mem hx)
  obtain ⟨⟨m1, m2⟩, hmc⟩ :=
    findColon_complete (mid.dropWhile isSpaceChar) hmid2 (parseConfidence_complete sp cs rest hsp hcs hcdig)
  refine ⟨⟨stripChars m1, (m2 : Int), (natOfDigits ds : Int)⟩, ?_⟩
  simp only [parseLine, hdw, htw, hdse, hwse, hr3, hmc]
  simp

/-! ### Helper lemmas on sorting and grouping -/

theorem filter_orderedInsert (p : Int) (a : Candidate) :
    ∀ l : List Candidate,
      (List.orderedInsert posLe a l).filter (fun c => c.position == p)
        = (a :: l).filter (fun c => c.position == p) := by
  intro l
  induction l with
  | nil => rfl
  | cons b t ih =>
    by_cases hab : posLe a b
    · simp [List.orderedInsert, hab]
    · have hba : b.position < a.position := by
        have : ¬ a.position ≤ b.position := hab
        omega
      by_cases hbp : b.position = p
      · have hap : a.position ≠ p := by omega
        simp only [List.orderedInsert, if_neg hab, List.filter_cons, ih]
        simp [hbp, hap]
      · by_cases hap : a.position = p
        · simp only [List.orderedInsert, if_neg hab, List.filter_cons, ih]
          simp [hbp, hap]
        · simp only [List.orderedInsert, if_neg hab, List.filter_cons, ih]
          simp [hbp, hap]

theorem filter_insertionSort (p : Int) :
    ∀ l : List Candidate,
      (List.insertionSort posLe l).filter (fun c => c.position == p)
        = l.filter (fun c => c.position == p) := by
  intro l
  induction l with
  | nil => rfl
  | cons a t ih =>
    rw [List.insertionSort, filter_orderedInsert]
    by_cases hap : a.position = p
    · simp [List.filter_cons, hap, ih]
    · simp [List.filter_cons, hap, ih]

theorem sorted_lt_of_le_nodup :
    ∀ {l : List Int}, l.Sorted (· ≤ ·) → l.Nodup → l.Sorted (· < ·) := by
  intro l hs hn
  induction l with
  | nil => simp
  | cons a t ih =>
    rw [List.sorted_cons] at hs ⊢
    obtain ⟨ha, hs'⟩ := hs
    obtain ⟨hna, hn'⟩ := List.nodup_cons.mp hn
    refine ⟨?_, ih hs' hn'⟩
    intro b hb
    exact lt_of_le_of_ne (ha b hb) (fun he => hna (he ▸ hb))

theorem mem_dedupKeys (x : Int) : ∀ (l : List Int), x ∈ dedupKeys l ↔ x ∈ l := by
  intro l
  induction l with
  | nil => simp [dedupKeys]
  | cons p rest ih =>
    cases rest with
    | nil => simp [dedupKeys]
    | cons q rest' =>
      by_cases hpq : p = q
      · subst hpq
        have e : dedupKeys (p :: p :: rest') = dedupKeys (p :: rest') := by
          simp [dedupKeys]
        rw [e, ih]
        simp [List.mem_cons]
      · simp only [dedupKeys, if_neg hpq, List.mem_cons, ih]

theorem dedupKeys_sorted_lt :
    ∀ {l : List Int}, l.Sorted (· ≤ ·) → (dedupKeys l).Sorted (· < ·) := by
  intro l
  induction l with
  | nil => intro _; simp [dedupKeys]
  | cons p rest ih =>
    intro hs
    cases rest with
    | nil => simp [dedupKeys]
    | cons q rest' =>
      rw [List.sorted_cons] at hs
      obtain ⟨hp, hs'⟩ := hs
      by_cases hpq : p = q
      · subst hpq
        simp only [dedupKeys, if_pos rfl]
        exact ih hs'
      · have hpq' : p < q := lt_of_le_of_ne (hp q (List.mem_cons_self q rest')) hpq
        simp only [dedupKeys, if_neg hpq]
        rw [List.sorted_cons]
        refine ⟨?_, ih hs'⟩
        intro b hb
        have hbmem : b ∈ q :: rest' := (mem_dedupKeys b _).mp hb
        rcases List.mem_cons.mp hbmem with h1 | h1
        · subst h1; exact hpq'
        · exact lt_of_lt_of_le hpq' ((List.sorted_cons.mp hs').1 b h1)

theorem dedupKeys_ne_nil : ∀ {l : List Int}, l ≠ [] → dedupKeys l ≠ [] := by
  intro l
  induction l with
  | nil => intro h; exact absurd rfl h
  | cons p rest ih =>
    intro _
    cases rest with
    | nil => simp [dedupKeys]
    | cons q rest' =>
      by_cases hpq : p = q
      · simp only [dedupKeys, if_pos hpq]
        exact ih (by simp)
      · simp [dedupKeys, if_neg hpq]

theorem flatMap_congr_mem {ks : List Int} {f g : Int → List Candidate}
    (h : ∀ q ∈ ks, f q = g q) : ks.flatMap f = ks.flatMap g := by
  induction ks with
  | nil => rfl
  | cons p t ih =>
    simp only [List.flatMap_cons]
    rw [h p (List.mem_cons_self p t), ih (fun q hq => h q (List.mem_cons_of_mem p hq))]

theorem sorted_filter_split (p : Int) :
    ∀ {s : List Candidate}, s.Sorted posLe → (∀ c ∈ s, p ≤ c.position) →
      s.filter (fun c => c.position == p) ++ s.filter (fun c => !(c.position == p)) = s := by
  intro s
  induction s with
  | nil => intro _ _; rfl
  | cons a t ih =>
    intro hs hall
    rw [List.sorted_cons] at hs
    obtain ⟨ha, hs'⟩ := hs
    by_cases hap : a.position = p
    · have e1 : (a :: t).filter (fun c => c.position == p)
          = a :: t.filter (fun c => c.position == p) := by
        simp [List.filter_cons, hap]
      have e2 : (a :: t).filter (fun c => !(c.position == p))
          = t.filter (fun c => !(c.position == p)) := by
        simp [List.filter_cons, hap]
      rw [e1, e2, List.cons_append,
        ih hs' (fun c hc => hall c (List.mem_cons_of_mem a hc))]
    · have hpa : p < a.position :=
        lt_of_le_of_ne (hall a (List.mem_cons_self a t)) (fun he => hap he.symm)
      have hfilt : t.filter (fun c => c.position == p) = [] := by
        rw [List.filter_eq_nil]
        intro c hc
        have h2 : a.position ≤ c.position := ha c hc
        simp only [beq_iff_eq]
        omega
      have hfilt2 : t.filter (fun c => !(c.position == p)) = t := by
        rw [List.filter_eq_self]
        intro c hc
        have h2 : a.position ≤ c.position := ha c hc
        simp only [Bool.not_eq_true', beq_eq_false_iff_ne, ne_eq]
        omega
      have e1 : (a :: t).filter (fun c => c.position == p)
          = t.filter (fun c => c.position == p) := by
        simp [List.filter_cons, hap]
      have e2 : (a :: t).filter (fun c => !(c.position == p))
          = a :: t.filter (fun c => !(c.position == p)) := by
        simp [List.filter_cons, hap]
      rw [e1, e2, hfilt, List.nil_append, hfilt2]

theorem flatMap_filter_keys :
    ∀ (keys : List Int) (s : List Candidate),
      s.Sorted posLe → keys.Sorted (· < ·) → (∀ c ∈ s, c.position ∈ keys) →
      keys.flatMap (fun p => s.filter (fun c => c.position == p)) = s := by
  intro keys
  induction keys with
  | nil =>
    intro s _ _ hcov
    cases s with
    | nil => rfl
    | cons a t => exact absurd (hcov a (List.mem_cons_self a t)) (List.not_mem_nil _)
  | cons p ks ih =>
    intro s hs hk hcov
    rw [List.sorted_cons] at hk
    obtain ⟨hpk, hk'⟩ := hk
    have hall : ∀ c ∈ s, p ≤ c.position := by
      intro c hc
      rcases List.mem_cons.mp (hcov c hc) with h1 | h1
      · exact le_of_eq h1.symm
      · exact le_of_lt (hpk _ h1)
    have hcongr : ∀ q ∈ ks,
        s.filter (fun c => c.position == q)
          = (s.filter (fun c => !(c.position == p))).filter (fun c => c.position == q) := by
      intro q hq
      rw [List.filter_filter]
      refine (List.filter_congr ?_).symm
      intro c hc
      by_cases hcq : c.position = q
      · have hqp : q ≠ p := by
          have := hpk q hq
          omega
        simp [hcq, hqp]
      · simp [hcq]
    rw [List.flatMap_cons, flatMap_congr_mem hcongr,
      ih (s.filter (fun c => !(c.position == p)))
        (List.Pairwise.sublist (List.filter_sublist _) hs) hk' ?_]
    · exact sorted_filter_split p hs hall
    · intro c hc
      have hmem : c ∈ s := List.mem_of_mem_filter hc
      have hne : c.position ≠ p := by
        have := List.of_mem_filter hc
        simp only [Bool.not_eq_true', beq_eq_false_iff_ne, ne_eq] at this
        exact this
      rcases List.mem_cons.mp (hcov c hmem) with h1 | h1
      · exact absurd h1 hne
      · exact h1

theorem group_map_fst (cs : List Candidate) :
    (group_similar_medicines cs).map (fun e => e.1)
      = List.insertionSort (fun p q : Int => p ≤ q)
          (dedupKeys ((List.insertionSort posLe cs).map (fun c => c.position))) := by
  simp [group_similar_medicines, List.map_map, Function.comp_def]

theorem keys_sorted_lt (cs : List Candidate) :
    (List.insertionSort (fun p q : Int => p ≤ q)
      (dedupKeys ((List.insertionSort posLe cs).map (fun c => c.position)))).Sorted (· < ·) := by
  have msorted : (List.insertionSort posLe cs).Sorted posLe := List.sorted_insertionSort posLe cs
  have mapSorted : ((List.insertionSort posLe cs).map (fun c => c.position)).Sorted (· ≤ ·) :=
    List.Pairwise.map _ (fun a b h => h) msorted
  have hnd : (dedupKeys ((List.insertionSort posLe cs).map (fun c => c.position))).Nodup :=
    List.Pairwise.imp (fun h => ne_of_lt h) (dedupKeys_sorted_lt mapSorted)
  have hsle : (List.insertionSort (fun p q : Int => p ≤ q)
      (dedupKeys ((List.insertionSort posLe cs).map (fun c => c.position)))).Sorted
        (fun p q : Int => p ≤ q) :=
    List.sorted_insertionSort _ _
  have hnd2 := ((List.perm_insertionSort (fun p q : Int => p ≤ q) _).nodup_iff).mpr hnd
  exact sorted_lt_of_le_nodup hsle hnd2

theorem keys_mem (cs : List Candidate) (p : Int) :
    p ∈ List.insertionSort (fun p q : Int => p ≤ q)
        (dedupKeys ((List.insertionSort posLe cs).map (fun c => c.position)))
      ↔ p ∈ cs.map (fun c => c.position) := by
  rw [(List.perm_insertionSort (fun p q : Int => p ≤ q) _).mem_iff, mem_dedupKeys,
    ((List.perm_insertionSort posLe cs).map (fun c => c.position)).mem_iff]

theorem map_flatMap_snd (ks : List Int) (f : Int → MedGroup) :
    (ks.map f).flatMap (fun e => e.2.2) = ks.flatMap (fun p => (f p).2.2) := by
  induction ks with
  | nil => rfl
  | cons p t ih => simp only [List.map_cons, List.flatMap_cons, ih]

theorem group_concat_eq_sorted (cs : List Candidate) :
    (group_similar_medicines cs).flatMap (fun e => e.2.2) = List.insertionSort posLe cs := by
  simp only [group_similar_medicines]
  rw [map_flatMap_snd]
  refine flatMap_filter_keys _ _ (List.sorted_insertionSort posLe cs) (keys_sorted_lt cs) ?_
  intro c hc
  rw [keys_mem]
  exact List.mem_map.mpr ⟨c, (List.perm_insertionSort posLe cs).mem_iff.mp hc, rfl⟩

/-! ### Claim theorems: extraction and grouping -/

/-- C1: extraction is the per-line filterMap of the line matcher over the
stripped, newline-split interpretation texts, so it yields exactly one
candidate per matching line and none from other lines; a line yields a
candidate iff it has the format `"<int>. <text>: <int>%"` described by
`LineFormat`; and a produced candidate's position is the leading integer
of its line, its name the (stripped) text between the period and the
colon, and its confidence the integer before the percent sign. -/
theorem extraction_line_contract :
    (∀ interps : List Str, extract_medicine_candidates interps
        = interps.flatMap (fun t => (splitLines (stripChars t)).filterMap parseLine))
    ∧ (∀ l : Str, (∃ c, parseLine l = some c) ↔ LineFormat l)
    ∧ (∀ (l : Str) (c : Candidate), parseLine l = some c → ParsedAs l c) := by
  refine ⟨fun interps => rfl, fun l => ⟨?_, parseLine_complete⟩, fun l c h => parseLine_sound h⟩
  rintro ⟨c, hc⟩
  obtain ⟨ds, ws, mid, sp, cs, rest, h1, _, h3, h4, h5, h6, h7, h8, h9, h10, _, _, _⟩ :=
    parseLine_sound hc
  exact ⟨ds, ws, mid, sp, cs, rest, h1, h3, h4, h5, h6, h7, h8, h9, h10⟩

/-- Witness for `extraction_line_contract`: the concrete line
`"12.  Amlo: 95% ok"` parses to the candidate `(Amlo, 95, 12)` and
decomposes as described. -/
theorem extraction_line_contract_witness :
    ParsedAs (("12.  Amlo: 95% ok").data) ⟨("Amlo").data, 95, 12⟩ :=
  extraction_line_contract.2.2 (("12.  Amlo: 95% ok").data) ⟨("Amlo").data, 95, 12⟩ (by decide)

/-- C2: grouping emits one group per distinct position of the input, in
strictly ascending key order (so there are no duplicate groups), and each
emitted entry's bucket is exactly the input candidates with that position
in their original encounter order, rendered by `group_text` as
`"Medicine <position>: [<name1>: <conf1>%, ...]"`. -/
theorem grouping_contract (cs : List Candidate) :
    ((group_similar_medicines cs).map (fun e => e.1)).Sorted (· < ·)
    ∧ (∀ p : Int, p ∈ (group_similar_medicines cs).map (fun e => e.1)
        ↔ p ∈ cs.map (fun c => c.position))
    ∧ ∀ e ∈ group_similar_medicines cs,
        e.2.2 = cs.filter (fun c => c.position == e.1)
        ∧ e.2.1 = group_text e.1 (cs.filter (fun c => c.position == e.1)) := by
  refine ⟨?_, ?_, ?_⟩
  · rw [group_map_fst]; exact keys_sorted_lt cs
  · intro p; rw [group_map_fst]; exact keys_mem cs p
  · intro e he
    simp only [group_similar_medicines, List.mem_map] at he
    obtain ⟨p, hp, hep⟩ := he
    subst hep
    have hf := filter_insertionSort p cs
    constructor
    · exact hf
    · dsimp only
      rw [hf]

/-- Witness for `grouping_contract`: the first emitted group of a concrete
two-candidate input is its position-1 filter with the stated rendering. -/
theorem grouping_contract_witness :
    ((1 : Int), ("Medicine 1: [Napa: 80%]").data, ([⟨("Napa").data, 80, 1⟩] : List Candidate)).2.2
        = ([⟨("Napa").data, 80, 1⟩, ⟨("Seclo").data, 70, 2⟩] : List Candidate).filter
            (fun c => c.position == ((1 : Int), ("Medicine 1: [Napa: 80%]").data,
              ([⟨("Napa").data, 80, 1⟩] : List Candidate)).1)
    ∧ ((1 : Int), ("Medicine 1: [Napa: 80%]").data,
          ([⟨("Napa").data, 80, 1⟩] : List Candidate)).2.1
        = group_text ((1 : Int), ("Medicine 1: [Napa: 80%]").data,
              ([⟨("Napa").data, 80, 1⟩] : List Candidate)).1
            (([⟨("Napa").data, 80, 1⟩, ⟨("Seclo").data, 70, 2⟩] : List Candidate).filter
              (fun c => c.position == ((1 : Int), ("Medicine 1: [Napa: 80%]").data,
                ([⟨("Napa").data, 80, 1⟩] : List Candidate)).1)) :=
  (grouping_contract [⟨("Napa").data, 80, 1⟩, ⟨("Seclo").data, 70, 2⟩]).2.2
    ((1 : Int), ("Medicine 1: [Napa: 80%]").data, [⟨("Napa").data, 80, 1⟩]) (by decide)

/-- C10: concatenating the buckets of the emitted groups in order yields
the input candidates stably sorted by position: it is a permutation of
the input (no candidate dropped, duplicated or modified), it is
nondecreasing in position, and the relative order of the candidates at
each fixed position is their original encounter order. -/
theorem grouping_partition (cs : List Candidate) :
    ((group_similar_medicines cs).flatMap (fun e => e.2.2)).Perm cs
    ∧ ((group_similar_medicines cs).flatMap (fun e => e.2.2)).Sorted posLe
    ∧ ∀ p : Int, ((group_similar_medicines cs).flatMap (fun e => e.2.2)).filter
        (fun c => c.position == p) = cs.filter (fun c => c.position == p) := by
  rw [group_concat_eq_sorted]
  exact ⟨List.perm_insertionSort posLe cs, List.sorted_insertionSort posLe cs,
    fun p => filter_insertionSort p cs⟩

/-- C9: the specification's worked example.  The three interpretation texts
yield exactly the five stated candidates, and grouping them yields exactly
the two stated groups, in ascending position order with encounter order
preserved inside each group. -/
theorem worked_example :
    extract_medicine_candidates
        [("1. Napa: 80%\n2. Seclo: 70%").data, ("1. Napa: 90%").data,
          ("1. Nap: 60%\n2. Seclo: 85%").data]
      = [⟨("Napa").data, 80, 1⟩, ⟨("Seclo").data, 70, 2⟩, ⟨("Napa").data, 90, 1⟩,
          ⟨("Nap").data, 60, 1⟩, ⟨("Seclo").data, 85, 2⟩]
    ∧ group_similar_medicines
        [⟨("Napa").data, 80, 1⟩, ⟨("Seclo").data, 70, 2⟩, ⟨("Napa").data, 90, 1⟩,
          ⟨("Nap").data, 60, 1⟩, ⟨("Seclo").data, 85, 2⟩]
      = [((1 : Int), ("Medicine 1: [Napa: 80%, Napa: 90%, Nap: 60%]").data,
            [⟨("Napa").data, 80, 1⟩, ⟨("Napa").data, 90, 1⟩, ⟨("Nap").data, 60, 1⟩]),
          ((2 : Int), ("Medicine 2: [Seclo: 70%, Seclo: 85%]").data,
            [⟨("Seclo").data, 70, 2⟩, ⟨("Seclo").data, 85, 2⟩])] := by
  constructor <;> decide

/-- C7 fails as stated: on the input line `"1. Napa: 150%"` extraction
produces the candidate `(Napa, 150, 1)` whose confidence exceeds 100; the
extraction code parses `(\d+)%` without any range check. -/
theorem confidence_range_counterexample :
    extract_medicine_candidates [("1. Napa: 150%").data] = [⟨("Napa").data, 150, 1⟩]
    ∧ ¬ (∀ c ∈ extract_medicine_candidates [("1. Napa: 150%").data], c.confidence ≤ 100) := by
  constructor <;> decide

/-- C7 amended: every candidate produced by extraction has a string name
and integer position and confidence which are nonnegative (both are parsed
from digit runs); no upper bound on the confidence is enforced. -/
theorem extraction_field_invariant (interps : List Str) :
    ∀ c ∈ extract_medicine_candidates interps, 0 ≤ c.confidence ∧ 0 ≤ c.position := by
  intro c hc
  simp only [extract_medicine_candidates, List.mem_flatMap] at hc
  obtain ⟨t, _, hct⟩ := hc
  obtain ⟨l, _, hpl⟩ := List.mem_filterMap.mp hct
  obtain ⟨_, _, _, _, _, _, _, _, _, _, _, _, _, _, _, _, hpos, _, hconf⟩ :=
    parseLine_sound hpl
  rw [hpos, hconf]
  exact ⟨Int.natCast_nonneg _, Int.natCast_nonneg _⟩

/-- Witness for `extraction_field_invariant` at a concrete extracted
candidate. -/
theorem extraction_field_invariant_witness :
    0 ≤ (⟨("Napa").data, 80, 1⟩ : Candidate).confidence
    ∧ 0 ≤ (⟨("Napa").data, 80, 1⟩ : Candidate).position :=
  extraction_field_invariant [("1. Napa: 80%").data] ⟨("Napa").data, 80, 1⟩ (by decide)

/-! ### Helper lemmas for the tuple order used by the interpretation sort -/

theorem leStr_total : ∀ s t : Str, leStr s t = true ∨ leStr t s = true := by
  intro s
  induction s with
  | nil => intro t; left; rfl
  | cons a as ih =>
    intro t
    cases t with
    | nil => right; rfl
    | cons b bs =>
      rcases lt_trichotomy a b with h | h | h
      · left; simp [leStr, h]
      · subst h
        have hirr : ¬ a < a := lt_irrefl a
        rcases ih bs with h2 | h2
        · left; simp [leStr, hirr, h2]
        · right; simp [leStr, hirr, h2]
      · right; simp [leStr, h]

theorem leStr_trans : ∀ {s t u : Str}, leStr s t = true → leStr t u = true → leStr s u = true := by
  intro s
  induction s with
  | nil => intro t u _ _; rfl
  | cons a as ih =>
    intro t u h1 h2
    cases t with
    | nil => simp [leStr] at h1
    | cons b bs =>
      cases u with
      | nil => simp [leStr] at h2
      | cons c cs =>
        by_cases hab : a < b
        · by_cases hbc : b < c
          · simp [leStr, lt_trans hab hbc]
          · by_cases hcb : c < b
            · simp [leStr, hbc, hcb] at h2
            · have he : b = c := le_antisymm (not_lt.mp hcb) (not_lt.mp hbc)
              subst he
              simp [leStr, hab]
        · by_cases hba : b < a
          · simp [leStr, hab, hba] at h1
          · have he : a = b := le_antisymm (not_lt.mp hba) (not_lt.mp hab)
            subst he
            have hirr : ¬ a < a := lt_irrefl a
            simp only [leStr, hirr, if_false] at h1
            by_cases hac : a < c
            · simp [leStr, hac]
            · by_cases hca : c < a
              · simp [leStr, hac, hca] at h2
              · have he2 : a = c := le_antisymm (not_lt.mp hca) (not_lt.mp hac)
                subst he2
                simp only [leStr, hirr, if_false] at h2 ⊢
                exact ih h1 h2

theorem leStr_antisymm : ∀ {s t : Str}, leStr s t = true → leStr t s = true → s = t := by
  intro s
  induction s with
  | nil =>
    intro t h1 h2
    cases t with
    | nil => rfl
    | cons b bs => simp [leStr] at h2
  | cons a as ih =>
    intro t h1 h2
    cases t with
    | nil => simp [leStr] at h1
    | cons b bs =>
      by_cases hab : a < b
      · simp [leStr, hab, asymm hab] at h2
      · by_cases hba : b < a
        · simp [leStr, hab, hba] at h1
        · have he : a = b := le_antisymm (not_lt.mp hba) (not_lt.mp hab)
          subst he
          have hirr : ¬ a < a := lt_irrefl a
          simp only [leStr, hirr, if_false] at h1 h2
          rw [ih h1 h2]

theorem lexLe_isTotal : ∀ a b : ℚ × Str, lexLe a b ∨ lexLe b a := by
  intro a b
  simp only [lexLe]
  rcases lt_trichotomy a.1 b.1 with h | h | h
  · exact Or.inl (Or.inl h)
  · rcases leStr_total a.2 b.2 with h2 | h2
    · exact Or.inl (Or.inr ⟨h, h2⟩)
    · exact Or.inr (Or.inr ⟨h.symm, h2⟩)
  · exact Or.inr (Or.inl h)

theorem lexLe_trans : ∀ {a b c : ℚ × Str}, lexLe a b → lexLe b c → lexLe a c := by
  intro a b c h1 h2
  simp only [lexLe] at h1 h2 ⊢
  rcases h1 with h1 | ⟨he1, hs1⟩
  · rcases h2 with h2 | ⟨he2, hs2⟩
    · exact Or.inl (lt_trans h1 h2)
    · exact Or.inl (he2 ▸ h1)
  · rcases h2 with h2 | ⟨he2, hs2⟩
    · exact Or.inl (he1 ▸ h2)
    · exact Or.inr ⟨he1.trans he2, leStr_trans hs1 hs2⟩

theorem lexLe_antisymm : ∀ {a b : ℚ × Str}, lexLe a b → lexLe b a → a = b := by
  intro a b h1 h2
  simp only [lexLe] at h1 h2
  rcases h1 with h1 | ⟨he1, hs1⟩
  · rcases h2 with h2 | ⟨he2, hs2⟩
    · exact absurd h2 (lt_asymm h1)
    · exact absurd (he2 ▸ h1) (lt_irrefl _)
  · rcases h2 with h2 | ⟨he2, hs2⟩
    · exact absurd (he1 ▸ h2) (lt_irrefl _)
    · exact Prod.ext he1 (leStr_antisymm hs1 hs2)

/-! ### Claim theorems: interpretation fan-out -/

/-- C5: two runs of the interpretation fan-out collection that differ only
in the completion order of the calls (their arrival lists are permutations
of each other) return the same final interpretation list, because the
collected `(temperature, text)` pairs are re-sorted by the tuple order
before the texts are returned. -/
theorem interpretation_order_independence (outcome : ℚ → Option Str)
    (arrival₁ arrival₂ : List ℚ) (hperm : arrival₁.Perm arrival₂) :
    run_parallel_interpretations outcome arrival₁
      = run_parallel_interpretations outcome arrival₂ := by
  haveI : IsTotal (ℚ × Str) lexLe := ⟨lexLe_isTotal⟩
  haveI : IsTrans (ℚ × Str) lexLe := ⟨fun _ _ _ => lexLe_trans⟩
  haveI : IsAntisymm (ℚ × Str) lexLe := ⟨fun _ _ => lexLe_antisymm⟩
  unfold run_parallel_interpretations
  have hp : (arrival₁.filterMap (fun t => (outcome t).map (fun r => (t, r)))).Perm
      (arrival₂.filterMap (fun t => (outcome t).map (fun r => (t, r)))) :=
    hperm.filterMap _
  congr 1
  exact List.eq_of_perm_of_sorted
    (((List.perm_insertionSort lexLe _).trans hp).trans (List.perm_insertionSort lexLe _).symm)
    (List.sorted_insertionSort lexLe _) (List.sorted_insertionSort lexLe _)

/-- Witness for `interpretation_order_independence`: reversing the arrival
order of two concrete completions leaves the output unchanged. -/
theorem interpretation_order_independence_witness :
    run_parallel_interpretations
        (fun t => if t = 7/10 then some (("A").data) else some (("B").data)) [7/10, 9/10]
      = run_parallel_interpretations
        (fun t => if t = 7/10 then some (("A").data) else some (("B").data)) [9/10, 7/10] :=
  interpretation_order_independence _ [7/10, 9/10] [9/10, 7/10] (List.Perm.swap (9/10) (7/10) [])

theorem length_filterMap_eq_filter (outcome : ℚ → Option Str) :
    ∀ arrival : List ℚ,
      (arrival.filterMap (fun t => (outcome t).map (fun r => (t, r)))).length
        = (arrival.filter (fun t => (outcome t).isSome)).length := by
  intro arrival
  induction arrival with
  | nil => rfl
  | cons t ts ih =>
    cases ho : outcome t with
    | none => simp [List.filterMap_cons, List.filter_cons, ho, ih]
    | some r => simp [List.filterMap_cons, List.filter_cons, ho, ih]

/-- C8: a failing interpretation call (an index whose outcome is `none`)
contributes no entry to the returned list — the output length is exactly
the number of successful calls — while every successful call's text is
still present; the collection is total, so no failure aborts the fan-out,
and each call's outcome is consulted exactly once (no retry is modeled
because the source has none). -/
theorem interpretation_failure_handling (outcome : ℚ → Option Str) (arrival : List ℚ) :
    (run_parallel_interpretations outcome arrival).length
        = (arrival.filter (fun t => (outcome t).isSome)).length
    ∧ ∀ t r, t ∈ arrival → outcome t = some r →
        r ∈ run_parallel_interpretations outcome arrival := by
  constructor
  · unfold run_parallel_interpretations
    rw [List.length_map, (List.perm_insertionSort lexLe _).length_eq]
    exact length_filterMap_eq_filter outcome arrival
  · intro t r ht hr
    unfold run_parallel_interpretations
    refine List.mem_map.mpr ⟨(t, r), ?_, rfl⟩
    rw [(List.perm_insertionSort lexLe _).mem_iff]
    exact List.mem_filterMap.mpr ⟨t, ht, by rw [hr]; rfl⟩

/-- Witness for `interpretation_failure_handling`: with the call at
temperature 0.7 failing and the one at 0.9 succeeding, the successful text
is still returned. -/
theorem interpretation_failure_handling_witness :
    ("ok").data ∈ run_parallel_interpretations
        (fun t => if t = 7/10 then none else some (("ok").data)) [7/10, 9/10] :=
  (interpretation_failure_handling
      (fun t => if t = 7/10 then none else some (("ok").data)) [7/10, 9/10]).2
    (9/10) (("ok").data) (List.mem_cons_of_mem _ (List.mem_cons_self _ _))
    (by rw [if_neg (by norm_num)])

/-- C6 fails as stated for the `v1_async_interpretation.py` fan-out, which
the claim also cites: there `generate_interpretation` ignores its
temperature argument and issues every request at temperature 0.2, so with
two passes the issued temperatures are `[0.2, 0.2]`, not `[0.7, 0.9]`. -/
theorem v1_fixed_temperature_counterexample :
    (issuedRequests_v1 [] 2).map Request.temperature = [2/10, 2/10]
    ∧ (issuedRequests_v1 [] 2).map Request.temperature ≠ [7/10, 7/10 + 1 * (2/10)] := by
  have h : (issuedRequests_v1 [] 2).map Request.temperature = [2/10, 2/10] := by
    simp [issuedRequests_v1, temperatures, generate_interpretation_v1, List.map_map,
      List.range_succ, Function.comp_def]
  refine ⟨h, ?_⟩
  rw [h]
  intro hc
  injection hc with h1 _
  norm_num at h1

/-- C6 amended: the `streamlit_demo_0.py` fan-out issues exactly N
requests, the i-th at temperature `0.7 + 0.2 * i`, and these temperatures
are pairwise distinct; the `v1_async_interpretation.py` fan-out also
issues exactly N requests but every one at the fixed temperature 0.2,
because `generate_interpretation` ignores the temperature passed to it. -/
theorem fan_out_temperature_contract (image : Image) (num_passes : Nat) :
    (issuedRequests image num_passes).length = num_passes
    ∧ (∀ i, i < num_passes → (issuedRequests image num_passes)[i]?
        = some ⟨7/10 + (i : ℚ) * (2/10), image⟩)
    ∧ ((issuedRequests image num_passes).map Request.temperature).Nodup
    ∧ (issuedRequests_v1 image num_passes).length = num_passes
    ∧ (∀ i, i < num_passes → (issuedRequests_v1 image num_passes)[i]? = some ⟨2/10, image⟩) := by
  refine ⟨?_, ?_, ?_, ?_, ?_⟩
  · simp only [issuedRequests, temperatures, List.length_map, List.length_range]
  · intro i hi
    simp only [issuedRequests, temperatures, List.getElem?_map, List.getElem?_range hi,
      Option.map_some']
  · have he : (issuedRequests image num_passes).map Request.temperature
        = (List.range num_passes).map (fun i : ℕ => (7 : ℚ)/10 + (i : ℚ) * (2/10)) := by
      simp only [issuedRequests, temperatures, List.map_map]
      rfl
    rw [he]
    have hinj : Function.Injective (fun i : ℕ => (7 : ℚ)/10 + (i : ℚ) * (2/10)) := by
      intro i j h
      have h2 : (i : ℚ) * (2/10) = (j : ℚ) * (2/10) := by
        have := add_left_cancel h
        exact this
      have hne : ((2 : ℚ)/10) ≠ 0 := by norm_num
      have h3 : (i : ℚ) = (j : ℚ) := mul_right_cancel₀ hne h2
      exact_mod_cast h3
    exact List.Nodup.map hinj (List.nodup_range num_passes)
  · simp only [issuedRequests_v1, temperatures, List.length_map, List.length_range]
  · intro i hi
    simp only [issuedRequests_v1, temperatures, generate_interpretation_v1,
      List.getElem?_map, List.getElem?_range hi, Option.map_some']

/-- Witness for `fan_out_temperature_contract`: the second request of a
three-pass run has temperature 0.9 in the streamlit variant and 0.2 in the
v1 variant. -/
theorem fan_out_temperature_contract_witness :
    (issuedRequests [] 3)[1]? = some ⟨7/10 + ((1 : Nat) : ℚ) * (2/10), []⟩
    ∧ (issuedRequests_v1 [] 3)[1]? = some ⟨2/10, []⟩ :=
  ⟨(fan_out_temperature_contract [] 3).2.1 1 (by decide),
    (fan_out_temperature_contract [] 3).2.2.2.2 1 (by decide)⟩

/-! ### Claim theorems: verification fan-out and pipeline control flow -/

/-- C4 fails as stated at the empty group list: submitting zero groups
makes the source construct `ThreadPoolExecutor(max_workers=min(6, 0))`,
which raises `ValueError` instead of returning an empty result list. -/
theorem verify_empty_counterexample :
    verify_medicine_groups (fun _ => Except.ok []) [] []
        = Except.error (("max_workers must be greater than 0").data)
    ∧ ¬ ∃ res, verify_medicine_groups (fun _ => Except.ok []) [] [] = Except.ok res := by
  constructor
  · rfl
  · rintro ⟨res, h⟩
    simp [verify_medicine_groups] at h

/-- C4 amended: for every nonempty list of groups, whatever completion
order the futures arrive in, the fan-out returns a result list with
exactly one entry per submitted group — a failing call contributes its
position paired with the captured `"Error: ..."` string instead of being
omitted, so one failure does not abort the batch — and the list is sorted
by ascending position; the per-name verifier of the v2 variant likewise
captures a failing call as an error string.  Submitting zero groups
instead raises `ValueError` from the thread-pool construction. -/
theorem verification_fanout_contract (call : MedGroup → Except Str Str)
    (groups arrival : List MedGroup) (hne : groups ≠ []) (hperm : arrival.Perm groups) :
    (∃ res, verify_medicine_groups call groups arrival = Except.ok res
      ∧ res.length = groups.length
      ∧ res.Perm (groups.map (verificationOutcome call))
      ∧ res.Sorted pairLe)
    ∧ ∀ (c : Str → Except Str Str) (nm e : Str), c nm = Except.error e →
        verify_medicine_name c nm = ("Error verifying medicine: ").data ++ e := by
  constructor
  · refine ⟨List.insertionSort pairLe (arrival.map (verificationOutcome call)), ?_, ?_, ?_, ?_⟩
    · have hie : groups.isEmpty = false := List.isEmpty_eq_false.mpr hne
      simp [verify_medicine_groups, hie]
    · rw [(List.perm_insertionSort pairLe _).length_eq, List.length_map]
      exact hperm.length_eq
    · exact (List.perm_insertionSort pairLe _).trans (hperm.map _)
    · exact List.sorted_insertionSort pairLe _
  · intro c nm e h
    simp [verify_medicine_name, h]

/-- Witness for `verification_fanout_contract`: two concrete groups, the
call failing on position 2, arriving in reversed order. -/
theorem verification_fanout_contract_witness :
    (∃ res, verify_medicine_groups
          (fun g => if g.1 = 1 then Except.ok (("good").data) else Except.error (("boom").data))
          [((1 : Int), ([] : Str), ([] : List Candidate)), ((2 : Int), [], [])]
          [((2 : Int), ([] : Str), ([] : List Candidate)), ((1 : Int), [], [])]
        = Except.ok res
      ∧ res.length
          = ([((1 : Int), ([] : Str), ([] : List Candidate)), ((2 : Int), [], [])]).length
      ∧ res.Perm (([((1 : Int), ([] : Str), ([] : List Candidate)), ((2 : Int), [], [])]).map
          (verificationOutcome (fun g => if g.1 = 1 then Except.ok (("good").data)
            else Except.error (("boom").data))))
      ∧ res.Sorted pairLe)
    ∧ ∀ (c : Str → Except Str Str) (nm e : Str), c nm = Except.error e →
        verify_medicine_name c nm = ("Error verifying medicine: ").data ++ e :=
  verification_fanout_contract _ _ _ (by decide) (by decide)

theorem groups_ne_nil {cands : List Candidate} (h : cands ≠ []) :
    group_similar_medicines cands ≠ [] := by
  have h1 : List.insertionSort posLe cands ≠ [] := by
    intro hnil
    have hlen := (List.perm_insertionSort posLe cands).length_eq
    rw [hnil] at hlen
    exact h (List.length_eq_zero.mp hlen.symm)
  have h2 : (List.insertionSort posLe cands).map (fun c => c.position) ≠ [] := by
    simpa [List.map_eq_nil_iff] using h1
  have h3 := dedupKeys_ne_nil h2
  have h4 : List.insertionSort (fun p q : Int => p ≤ q)
      (dedupKeys ((List.insertionSort posLe cands).map (fun c => c.position))) ≠ [] := by
    intro hnil
    have hlen := (List.perm_insertionSort (fun p q : Int => p ≤ q)
      (dedupKeys ((List.insertionSort posLe cands).map (fun c => c.position)))).length_eq
    rw [hnil] at hlen
    exact h3 (List.length_eq_zero.mp hlen.symm)
  unfold group_similar_medicines
  simpa [List.map_eq_nil_iff] using h4

/-- C3: the pipeline reaches the `NoMedicinesFound` terminal outcome (with
its fixed report, and with no grouping, verification or synthesis
recorded) exactly when extraction produced zero candidates; when at least
one candidate exists, the run instead completes with the groups, the
verification results and the synthesized report. -/
theorem pipeline_short_circuit (interps : List Str) (call : MedGroup → Except Str Str)
    (arrival : List MedGroup) (synth : List (Int × Str) → Str) :
    (main_pipeline interps call arrival synth
        = PipelineOutcome.noMedicinesFound no_medicines_report
      ↔ extract_medicine_candidates interps = [])
    ∧ (extract_medicine_candidates interps ≠ [] →
        ∃ v, main_pipeline interps call arrival synth
          = PipelineOutcome.completed
              (group_similar_medicines (extract_medicine_candidates interps)) v (synth v)) := by
  by_cases hc : extract_medicine_candidates interps = []
  · refine ⟨⟨fun _ => hc, fun _ => ?_⟩, fun hne => absurd hc hne⟩
    simp [main_pipeline, hc]
  · have hisEmpty : (extract_medicine_candidates interps).isEmpty = false :=
      List.isEmpty_eq_false.mpr hc
    have hgisEmpty : (group_similar_medicines (extract_medicine_candidates interps)).isEmpty
        = false := List.isEmpty_eq_false.mpr (groups_ne_nil hc)
    have hmain : main_pipeline interps call arrival synth
        = PipelineOutcome.completed
            (group_similar_medicines (extract_medicine_candidates interps))
            (List.insertionSort pairLe (arrival.map (verificationOutcome call)))
            (synth (List.insertionSort pairLe (arrival.map (verificationOutcome call)))) := by
      simp only [main_pipeline, verify_medicine_groups, hisEmpty, hgisEmpty,
        Bool.false_eq_true, if_false]
    refine ⟨⟨fun h => ?_, fun h => absurd h hc⟩, fun _ => ⟨_, hmain⟩⟩
    rw [hmain] at h
    exact absurd h (by simp)

/-- Witness for `pipeline_short_circuit`: a run on one matching line
completes with grouping, verification and synthesis. -/
theorem pipeline_short_circuit_witness :
    ∃ v, main_pipeline [("1. Napa: 80%").data] (fun _ => Except.ok (("verified").data)) []
        (fun _ => ("final").data)
      = PipelineOutcome.completed
          (group_similar_medicines (extract_medicine_candidates [("1. Napa: 80%").data])) v
          (("final").data) :=
  (pipeline_short_circuit [("1. Napa: 80%").data] (fun _ => Except.ok (("verified").data)) []
    (fun _ => ("final").data)).2 (by decide)
